import Mathlib

/-!
Verification of the Tabular Statistics Engine underlying
`src/carpriceapp.py` (Car-Prices-Data-Dashbord).

The file shallowly embeds the statistical pipeline of the dashboard:

* the "High Correlations" pipeline (lines 275-284 of the source):
  `correlation_matrix.stack()` → filter (`Variable 1 != Variable 2` and
  `Correlation > 0.5`) → `drop_duplicates(subset=["Correlation"])`,
  followed by `sort_values("Correlation", ascending=False)` (line 308);
* the pandas correlation matrix `numeric_df.corr()` (line 272) over
  columns of float values (finite rationals, ±infinity, NaN);
* the range filter `df[(df[c] >= lo) & (df[c] <= hi)]` (lines 212-215);
* the column classifier `select_dtypes` over a CSV-loaded frame
  (lines 120-121);
* the Safe Correlation Calculator of the specification (validity mask,
  neutral fallback, Pearson coefficient with a two-sided p-value).

Machine floats are modelled by exact rationals extended with the
special values `+inf`, `-inf` and `NaN`; correlation coefficients of
the form `cov / sqrt d` are carried in the computable normal form
`(cov, d) : ℚ × ℚ` and interpreted into `ℝ` where a claim speaks about
the numeric value itself.
-/

namespace CarPrices

/-- One stacked row of the correlation matrix: (row index, column index,
coefficient), the shape produced by `stack().reset_index()` with columns
renamed to `Variable 1`, `Variable 2`, `Correlation`.  Variables are
identified by their position in the numeric-column ordering; the source
compares the two name columns for inequality, which coincides with index
inequality because pandas column names are distinct. -/
abbrev StackRow : Type := Nat × Nat × ℚ

/-- Row-major stacking of an `n × n` matrix of coefficients, as done by
`correlation_matrix.stack().reset_index()`. -/
def stackMatrix (n : Nat) (entry : Nat → Nat → ℚ) : List StackRow :=
  (List.range n).flatMap fun i => (List.range n).map fun j => (i, j, entry i j)

/-- The boolean mask of lines 280-283 of the source: keep rows with
`Variable 1 != Variable 2` and `Correlation > τ` (the source hard-codes
`τ = 0.5`). -/
def filterHigh (τ : ℚ) (l : List StackRow) : List StackRow :=
  l.filter fun p => decide (p.1 ≠ p.2.1 ∧ τ < p.2.2)

/-- `drop_duplicates(subset=["Correlation"])` with the default
`keep="first"`: scan the rows in order and keep a row only when its
coefficient value has not been seen before. -/
def dropDupByCorr : List StackRow → List ℚ → List StackRow
  | [], _ => []
  | p :: rest, seen =>
    if p.2.2 ∈ seen then dropDupByCorr rest seen
    else p :: dropDupByCorr rest (p.2.2 :: seen)

/-- The `high_correlations` value of lines 275-284 of the source, with
the threshold `0.5` generalised to a parameter `τ`. -/
def high_correlations (n : Nat) (entry : Nat → Nat → ℚ) (τ : ℚ) : List StackRow :=
  dropDupByCorr (filterHigh τ (stackMatrix n entry)) []

/-- The matrix of the concrete scenario of the specification:
columns `[A,B,C]` (indices 0,1,2) with `corr(A,B) = corr(A,C) = 3/5`,
`corr(B,C) = 1/10` and unit diagonal. -/
def exEntry : Nat → Nat → ℚ
  | 0, 1 => mkRat 3 5
  | 1, 0 => mkRat 3 5
  | 0, 2 => mkRat 3 5
  | 2, 0 => mkRat 3 5
  | 1, 2 => mkRat 1 10
  | 2, 1 => mkRat 1 10
  | _, _ => 1

/-- One step of the descending insertion sort modelling
`sort_values("Correlation", ascending=False)`. -/
def insertByCorrDesc (p : StackRow) : List StackRow → List StackRow
  | [] => [p]
  | q :: rest => if q.2.2 ≤ p.2.2 then p :: q :: rest else q :: insertByCorrDesc p rest

/-- Sorting the significant pairs by descending coefficient, modelling
`sort_values("Correlation", ascending=False)` of line 308. -/
def sort_values_desc : List StackRow → List StackRow
  | [] => []
  | p :: rest => insertByCorrDesc p (sort_values_desc rest)

/-- The table handed to the consumer at lines 307-310 of the source:
the significant pairs sorted by descending coefficient. -/
def correlation_details (n : Nat) (entry : Nat → Nat → ℚ) (τ : ℚ) : List StackRow :=
  sort_values_desc (high_correlations n entry τ)

/-- Strict lexicographic order on stacked rows by (row index, column
index): the order in which `stack()` emits the cells of the matrix. -/
def pairLexLT (p q : StackRow) : Prop :=
  p.1 < q.1 ∨ (p.1 = q.1 ∧ p.2.1 < q.2.1)

/-- Symmetric entry function used to instantiate the extractor theorems
on a concrete matrix. -/
def wEntry : Nat → Nat → ℚ := fun _ _ => mkRat 3 5

/-- A machine floating-point value as stored in a numeric pandas column:
an exact finite rational, positive or negative infinity, or NaN (which is
also how pandas stores a missing value). -/
inductive FVal : Type
  | fin (q : ℚ)
  | pinf
  | ninf
  | nan
deriving DecidableEq

def FVal.isNan : FVal → Bool
  | .nan => true
  | .fin _ => false
  | .pinf => false
  | .ninf => false

def FVal.isFinite : FVal → Bool
  | .fin _ => true
  | .pinf => false
  | .ninf => false
  | .nan => false

/-- The finite values of a column, in order. -/
def finiteVals (xs : List FVal) : List ℚ :=
  xs.filterMap fun v =>
    match v with
    | .fin q => some q
    | .pinf => none
    | .ninf => none
    | .nan => none

/-- The rows of a pair list on which both values are finite rationals. -/
def finPairs (rows : List (FVal × FVal)) : List (ℚ × ℚ) :=
  rows.filterMap fun p =>
    match p with
    | (.fin a, .fin b) => some (a, b)
    | _ => none

/-- The rows `numeric_df.corr()` uses for one pair of columns: pandas
`nancorr` masks with `np.isfinite`, so per pair it drops every row
where either value is NaN (missing) or ±infinity, and computes over the
remaining finite values. -/
def pandasValidPairs (xs ys : List FVal) : List (ℚ × ℚ) :=
  finPairs (xs.zip ys)

def mean (l : List ℚ) : ℚ := l.sum / l.length

/-- Centered cross-product sum `Σ (xᵢ - x̄)(yᵢ - ȳ)`, the numerator of
the Pearson product-moment coefficient. -/
def covSum (ps : List (ℚ × ℚ)) : ℚ :=
  (ps.map fun p =>
    (p.1 - mean (ps.map Prod.fst)) * (p.2 - mean (ps.map Prod.snd))).sum

/-- Centered square sum `Σ (xᵢ - x̄)²`. -/
def varSum (l : List ℚ) : ℚ :=
  (l.map fun x => (x - mean l) ^ 2).sum

/-- One cell of `numeric_df.corr()` (line 272 of the source), in the
computable normal form `some (c, d)` standing for the floating value
`c / sqrt d`, with `none` for NaN.  `nancorr` returns NaN when fewer
rows survive the finiteness mask than `min_periods` (default 1);
otherwise it computes `cov / sqrt (varX * varY)` over the surviving
rows, which is a 0/0 — NaN — exactly when the variance product `d` is
zero (by Cauchy-Schwarz, `d = 0` forces `c = 0`). -/
def pandasEntry (xs ys : List FVal) : Option (ℚ × ℚ) :=
  if (pandasValidPairs xs ys).length < 1 then none
  else some (covSum (pandasValidPairs xs ys),
    varSum ((pandasValidPairs xs ys).map Prod.fst) *
      varSum ((pandasValidPairs xs ys).map Prod.snd))

/-- The correlation matrix built over the numeric columns, entry `(i,j)`
in the normal form of `pandasEntry`. -/
def corr_matrix (cols : List (List FVal)) (i j : Nat) : Option (ℚ × ℚ) :=
  pandasEntry (cols.getD i []) (cols.getD j [])

/-- Whether a matrix cell in normal form holds the value exactly `1.0`:
`c / sqrt d = 1` iff `c` is positive and `c² = d` (and a NaN cell is
never `1.0`). -/
def entryIsOne : Option (ℚ × ℚ) → Prop
  | some (c, d) => 0 < c ∧ c ^ 2 = d
  | none => False

instance (e : Option (ℚ × ℚ)) : Decidable (entryIsOne e) :=
  match e with
  | some (c, d) => inferInstanceAs (Decidable (0 < c ∧ c ^ 2 = d))
  | none => inferInstanceAs (Decidable False)

/-- Interpretation of a matrix cell as a real number: `none` when the
cell is NaN (which also happens when the variance product `d` is zero,
a 0/0 in floating point), otherwise `c / sqrt d`. -/
noncomputable def entryVal : Option (ℚ × ℚ) → Option ℝ
  | some (c, d) => if d = 0 then none else some ((c : ℝ) / Real.sqrt (d : ℝ))
  | none => none

/-- Floating-point `<=` on column values: any comparison with NaN is
false, `-inf` is below and `+inf` above everything else. -/
def FVal.fle : FVal → FVal → Bool
  | .nan, _ => false
  | _, .nan => false
  | .ninf, _ => true
  | _, .pinf => true
  | .pinf, _ => false
  | .fin a, .fin b => decide (a ≤ b)
  | .fin _, .ninf => false

/-- The range filter of lines 212-215 of the source:
`df[(df[c] >= lo) & (df[c] <= hi)]`, a boolean-mask filter on one
column using floating-point comparisons. -/
def filtered_data {α : Type _} (rows : List α) (val : α → FVal) (lo hi : ℚ) : List α :=
  rows.filter fun r => FVal.fle (.fin lo) (val r) && FVal.fle (val r) (.fin hi)

/-- A raw CSV cell: missing, or a field that parses as a number, or one
that does not. -/
inductive Cell : Type
  | num (q : ℚ)
  | str (s : String)
deriving DecidableEq

/-- Column classifier of lines 120-121 of the source: a CSV column lands
in `numeric_df = df.select_dtypes(include=["float64", "int"])` exactly
when `read_csv` inferred a numeric dtype for it, which happens when every
present cell parses as a number; a column whose cells are all missing is
inferred `float64` (all NaN) and is therefore numeric as well. -/
def colIsNumeric (col : List (Option Cell)) : Bool :=
  col.all fun c =>
    match c with
    | some (.num _) => true
    | some (.str _) => false
    | none => true

/-- Modelled from the spec: the Safe Correlation Calculator of spec
section 4.2 is not part of this source file — line 225 passes the raw
columns straight to scipy's `pearsonr` — so its validity mask is modelled
from the specification's words: a row is valid only when both values are
finite, non-missing numbers (NaN and ±infinity excluded). -/
def validPairs (xs ys : List FVal) : List (ℚ × ℚ) :=
  finPairs (xs.zip ys)

/-- Result record of the Safe Correlation Calculator. -/
structure CorrelationResult where
  coefficient : ℝ
  p_value : ℝ
  valid_pair_count : ℕ

/-- Pearson product-moment coefficient over a list of valid pairs:
`Σ (x-x̄)(y-ȳ) / sqrt (Σ (x-x̄)² · Σ (y-ȳ)²)`. -/
noncomputable def pearsonCoeff (ps : List (ℚ × ℚ)) : ℝ :=
  (covSum ps : ℝ) /
    Real.sqrt ((varSum (ps.map Prod.fst) : ℝ) * (varSum (ps.map Prod.snd) : ℝ))

/-- The t-statistic `r · sqrt ((n-2) / (1-r²))` of the correlation test
with `n - 2` degrees of freedom. -/
noncomputable def tStat (ps : List (ℚ × ℚ)) : ℝ :=
  pearsonCoeff ps *
    Real.sqrt (((ps.length : ℝ) - 2) / (1 - pearsonCoeff ps ^ 2))

/-- Modelled from the spec: the Safe Correlation Calculator (spec
section 4.2).  `F` is the cumulative distribution function of the
Student-t distribution with `n − 2` degrees of freedom, passed as a
parameter since only its CDF properties matter to the stated claims;
the two-sided p-value is `2·(1 − F |t|)`.  Fewer than two valid rows
yield the neutral result `(0, 1, n)`. -/
noncomputable def safe_corr (F : ℝ → ℝ) (xs ys : List FVal) : CorrelationResult :=
  if (validPairs xs ys).length < 2 then
    ⟨0, 1, (validPairs xs ys).length⟩
  else
    ⟨pearsonCoeff (validPairs xs ys),
     2 * (1 - F |tStat (validPairs xs ys)|),
     (validPairs xs ys).length⟩

/-- A step function standing in for a concrete CDF in the witnesses: it
is valued in `[0,1]` and is at least `1/2` on the nonnegative axis. -/
noncomputable def stepCDF : ℝ → ℝ := fun x => if x < 0 then 0 else 1

/-- The x column of the spec's concrete masking scenario:
`[1, 2, inf, 4]`. -/
def exX : List FVal := [.fin 1, .fin 2, .pinf, .fin 4]

/-- The y column of the spec's concrete masking scenario:
`[10, 20, 30, nan]`. -/
def exY : List FVal := [.fin 10, .fin 20, .fin 30, .nan]

theorem insertByCorrDesc_perm (p : StackRow) (l : List StackRow) :
    (insertByCorrDesc p l).Perm (p :: l) := by
  induction l with
  | nil => simp [insertByCorrDesc]
  | cons q rest ih =>
    by_cases h : q.2.2 ≤ p.2.2
    · simp [insertByCorrDesc, h]
    · simpa [insertByCorrDesc, h] using
        ((ih.cons q).trans (List.Perm.swap p q rest))

theorem sort_values_desc_perm (l : List StackRow) :
    (sort_values_desc l).Perm l := by
  induction l with
  | nil => simp [sort_values_desc]
  | cons p rest ih =>
    exact (insertByCorrDesc_perm p (sort_values_desc rest)).trans (ih.cons p)

theorem insertByCorrDesc_pairwise (p : StackRow) (l : List StackRow)
    (h : l.Pairwise fun a b => b.2.2 ≤ a.2.2) :
    (insertByCorrDesc p l).Pairwise fun a b => b.2.2 ≤ a.2.2 := by
  induction l with
  | nil => simp [insertByCorrDesc]
  | cons q rest ih =>
    rcases List.pairwise_cons.mp h with ⟨hq, hrest⟩
    by_cases hle : q.2.2 ≤ p.2.2
    · simp only [insertByCorrDesc, if_pos hle]
      refine List.pairwise_cons.mpr ⟨?_, h⟩
      intro y hy
      rcases List.mem_cons.mp hy with hy | hy
      · exact hy ▸ hle
      · exact le_trans (hq y hy) hle
    · simp only [insertByCorrDesc, if_neg hle]
      refine List.pairwise_cons.mpr ⟨?_, ih hrest⟩
      intro y hy
      have hy' : y ∈ p :: rest := (insertByCorrDesc_perm p rest).mem_iff.mp hy
      rcases List.mem_cons.mp hy' with hy' | hy'
      · exact hy' ▸ le_of_lt (lt_of_not_le hle)
      · exact hq y hy'

theorem sort_values_desc_pairwise (l : List StackRow) :
    (sort_values_desc l).Pairwise fun a b => b.2.2 ≤ a.2.2 := by
  induction l with
  | nil => simp [sort_values_desc]
  | cons p rest ih => exact insertByCorrDesc_pairwise p (sort_values_desc rest) ih

/-- C1 (code behaviour at the failing input): on the specification's own
concrete scenario — `corr(A,B) = corr(A,C) = 3/5`, `corr(B,C) = 1/10`,
threshold `1/2` — the pipeline's `drop_duplicates(subset=["Correlation"])`
collapses the two *distinct* pairs sharing the coefficient `3/5`: the
result is `[(A,B,3/5)]` only, and the pair `(A,C)` is missing, although
the claim requires both to be retained. -/
theorem C1_dedup_by_value_drops_distinct_pair :
    high_correlations 3 exEntry (mkRat 1 2) = [(0, 1, mkRat 3 5)] ∧
      (0, 2, mkRat 3 5) ∉ high_correlations 3 exEntry (mkRat 1 2) := by
  decide

theorem mem_stackMatrix {n : Nat} {entry : Nat → Nat → ℚ} {p : StackRow} :
    p ∈ stackMatrix n entry ↔ p.1 < n ∧ p.2.1 < n ∧ p.2.2 = entry p.1 p.2.1 := by
  constructor
  · intro hp
    simp only [stackMatrix, List.mem_flatMap, List.mem_map, List.mem_range] at hp
    obtain ⟨i, hi, j, hj, rfl⟩ := hp
    exact ⟨hi, hj, rfl⟩
  · intro ⟨h1, h2, h3⟩
    simp only [stackMatrix, List.mem_flatMap, List.mem_map, List.mem_range]
    exact ⟨p.1, h1, p.2.1, h2, by rw [← h3]⟩

theorem stackMatrix_pairwise (n : Nat) (entry : Nat → Nat → ℚ) :
    (stackMatrix n entry).Pairwise pairLexLT := by
  refine List.pairwise_flatMap.mpr ⟨?_, ?_⟩
  · intro i _
    refine List.pairwise_map.mpr ?_
    exact (List.pairwise_lt_range n).imp fun h => Or.inr ⟨rfl, h⟩
  · refine (List.pairwise_lt_range n).imp ?_
    intro i1 i2 h x hx y hy
    obtain ⟨j1, _, rfl⟩ := List.mem_map.mp hx
    obtain ⟨j2, _, rfl⟩ := List.mem_map.mp hy
    exact Or.inl h

theorem find?_eq_some_split {α : Type _} {p : α → Bool} {x : α} {l : List α}
    (h : l.find? p = some x) :
    ∃ l₁ l₂, l = l₁ ++ x :: l₂ ∧ ∀ y ∈ l₁, p y = false := by
  induction l with
  | nil => simp [List.find?] at h
  | cons a l ih =>
    by_cases hpa : p a = true
    · rw [List.find?_cons_of_pos l hpa] at h
      obtain rfl := Option.some.inj h
      exact ⟨[], l, rfl, by simp⟩
    · rw [List.find?_cons_of_neg l hpa] at h
      obtain ⟨l₁, l₂, rfl, hl₁⟩ := ih h
      refine ⟨a :: l₁, l₂, rfl, ?_⟩
      intro y hy
      rcases List.mem_cons.mp hy with rfl | hy
      · exact Bool.eq_false_iff.mpr hpa
      · exact hl₁ y hy

theorem mem_dropDupByCorr_find {l : List StackRow} {seen : List ℚ} {x : StackRow}
    (hx : x ∈ dropDupByCorr l seen) :
    x.2.2 ∉ seen ∧ l.find? (fun y => decide (y.2.2 = x.2.2)) = some x := by
  induction l generalizing seen with
  | nil => simp [dropDupByCorr] at hx
  | cons p rest ih =>
    by_cases hmem : p.2.2 ∈ seen
    · rw [dropDupByCorr, if_pos hmem] at hx
      obtain ⟨hnot, hfind⟩ := ih hx
      refine ⟨hnot, ?_⟩
      rw [List.find?_cons_of_neg rest, hfind]
      simp only [decide_eq_true_eq]
      intro heq
      exact hnot (heq ▸ hmem)
    · rw [dropDupByCorr, if_neg hmem] at hx
      rcases List.mem_cons.mp hx with rfl | hx
      · refine ⟨hmem, ?_⟩
        rw [List.find?_cons_of_pos rest]
        simp
      · obtain ⟨hnot, hfind⟩ := ih hx
        have hne : p.2.2 ≠ x.2.2 := fun he => hnot (he ▸ List.mem_cons_self _ _)
        refine ⟨fun hs => hnot (List.mem_cons_of_mem _ hs), ?_⟩
        rw [List.find?_cons_of_neg rest, hfind]
        simpa using hne

/-- C4: for every symmetric matrix and threshold, every pair retained by
the extractor is canonically oriented — its first variable strictly
precedes its second in the numeric-column ordering — and consequently
the extractor never returns both `(a,b)` and `(b,a)` for the same
unordered pair. -/
theorem C4_canonical_orientation (n : Nat) (entry : Nat → Nat → ℚ) (τ : ℚ)
    (hsym : ∀ i j, entry i j = entry j i) :
    (∀ p ∈ high_correlations n entry τ, p.1 < p.2.1) ∧
      ∀ p ∈ high_correlations n entry τ, ∀ q ∈ high_correlations n entry τ,
        ¬(p.1 = q.2.1 ∧ p.2.1 = q.1) := by
  have hcanon : ∀ p ∈ high_correlations n entry τ, p.1 < p.2.1 := by
    intro p hp
    obtain ⟨-, hfind⟩ := mem_dropDupByCorr_find hp
    obtain ⟨L₁, L₂, hsplit, hL₁⟩ := find?_eq_some_split hfind
    have hpmem : p ∈ filterHigh τ (stackMatrix n entry) := by
      rw [hsplit]
      exact List.mem_append_right _ (List.mem_cons_self _ _)
    have hpstack := List.mem_filter.mp hpmem
    obtain ⟨hp1, hp2, hp3⟩ := mem_stackMatrix.mp hpstack.1
    have hppred : p.1 ≠ p.2.1 ∧ τ < p.2.2 := by
      simpa using hpstack.2
    by_contra hlt
    have hgt : p.2.1 < p.1 := lt_of_le_of_ne (not_lt.mp hlt) fun he => hppred.1 he.symm
    set q : StackRow := (p.2.1, p.1, entry p.2.1 p.1) with hq
    have hqval : q.2.2 = p.2.2 := by rw [hq, hp3]; exact hsym p.2.1 p.1
    have hqmem : q ∈ filterHigh τ (stackMatrix n entry) := by
      refine List.mem_filter.mpr ⟨mem_stackMatrix.mpr ⟨hp2, hp1, rfl⟩, ?_⟩
      simp only [decide_eq_true_eq]
      refine ⟨fun he => hppred.1 he.symm, ?_⟩
      rw [hsym p.2.1 p.1, ← hp3]
      exact hppred.2
    rw [hsplit] at hqmem
    rcases List.mem_append.mp hqmem with hqmem | hqmem
    · have := hL₁ q hqmem
      rw [decide_eq_false_iff_not] at this
      exact this hqval
    · rcases List.mem_cons.mp hqmem with heq | hqmem
      · exact hppred.1 (congrArg Prod.fst heq).symm
      · have hpw : (filterHigh τ (stackMatrix n entry)).Pairwise pairLexLT :=
          (stackMatrix_pairwise n entry).filter _
        rw [hsplit] at hpw
        have hpl : pairLexLT p q :=
          (List.pairwise_cons.mp (List.pairwise_append.mp hpw).2.1).1 q hqmem
        rcases hpl with hpl | hpl
        · exact absurd (hpl.trans hgt) (lt_irrefl _)
        · exact hppred.1 hpl.1
  refine ⟨hcanon, ?_⟩
  intro p hp q hq ⟨h1, h2⟩
  have := hcanon p hp
  have := hcanon q hq
  omega

/-- C4 witness: the theorem applied to the concrete symmetric 2×2 matrix
with every entry `3/5` and threshold `1/2`. -/
theorem C4_canonical_orientation_witness :
    (∀ i j, wEntry i j = wEntry j i) ∧
      ((∀ p ∈ high_correlations 2 wEntry (mkRat 1 2), p.1 < p.2.1) ∧
        ∀ p ∈ high_correlations 2 wEntry (mkRat 1 2),
          ∀ q ∈ high_correlations 2 wEntry (mkRat 1 2),
            ¬(p.1 = q.2.1 ∧ p.2.1 = q.1)) :=
  ⟨fun _ _ => rfl, C4_canonical_orientation 2 wEntry (mkRat 1 2) fun _ _ => rfl⟩

/-- C10: the correlation-details table handed to the consumer is the
significant-pair set ordered by descending coefficient: it is pairwise
descending in the coefficient and a permutation of `high_correlations`. -/
theorem C10_details_sorted_descending (n : Nat) (entry : Nat → Nat → ℚ) (τ : ℚ) :
    ((correlation_details n entry τ).Pairwise fun a b => b.2.2 ≤ a.2.2) ∧
      (correlation_details n entry τ).Perm (high_correlations n entry τ) :=
  ⟨sort_values_desc_pairwise _, sort_values_desc_perm _⟩

/-- C6: for `lo ≤ hi` the range filter keeps exactly the rows whose
value in the predicate column is a finite number `q` with
`lo ≤ q ∧ q ≤ hi`; rows whose value is missing (NaN) or non-finite are
excluded (fail-closed). -/
theorem C6_range_filter_exact {α : Type _} (rows : List α) (val : α → FVal)
    (lo hi : ℚ) (h : lo ≤ hi) :
    filtered_data rows val lo hi = rows.filter fun r =>
      match val r with
      | .fin q => decide (lo ≤ q ∧ q ≤ hi)
      | _ => false := by
  unfold filtered_data
  apply List.filter_congr
  intro r _
  cases hv : val r <;> simp [FVal.fle, hv]

/-- Concrete sample dataset for the range-filter witnesses: row ids
paired with a price value, one row having a missing price. -/
def exRows : List (Nat × FVal) :=
  [(0, .fin 6000), (1, .fin 4000), (2, .nan), (3, .fin 10000)]

/-- C6 witness: the theorem applied at the concrete predicate
`{column: price, low: 5000, high: 10000}`; the row with the missing
price and the out-of-range row are excluded, the two in-range rows kept. -/
theorem C6_range_filter_exact_witness :
    (5000 : ℚ) ≤ 10000 ∧
      (filtered_data exRows Prod.snd 5000 10000 = exRows.filter fun r =>
        match r.2 with
        | .fin q => decide ((5000 : ℚ) ≤ q ∧ q ≤ 10000)
        | _ => false) ∧
      filtered_data exRows Prod.snd 5000 10000 = [(0, .fin 6000), (3, .fin 10000)] :=
  ⟨by decide, C6_range_filter_exact exRows Prod.snd 5000 10000 (by decide), by decide⟩

/-- C7 (amended): a malformed range predicate with `low > high` is not
reported as an error; the filter silently returns the empty dataset,
because no value can satisfy both bounds. -/
theorem C7_low_gt_high_silently_empty {α : Type _} (rows : List α)
    (val : α → FVal) (lo hi : ℚ) (h : hi < lo) :
    filtered_data rows val lo hi = [] := by
  unfold filtered_data
  rw [List.filter_eq_nil_iff]
  intro r _
  cases hv : val r with
  | fin q =>
    simp only [FVal.fle, Bool.and_eq_true, decide_eq_true_eq]
    intro ⟨h1, h2⟩
    linarith
  | pinf => simp [FVal.fle]
  | ninf => simp [FVal.fle]
  | nan => simp [FVal.fle]

/-- C7 counterexample to the claim as stated: applying the filter with
`low = 10 > 5 = high` to a nonempty dataset does not surface any error
condition — the (total) filter just returns an empty dataset. -/
theorem C7_claim_counterexample :
    (5 : ℚ) < 10 ∧
      filtered_data [(0, FVal.fin 7)] Prod.snd 10 5 = [] ∧
      [(0, FVal.fin 7)] ≠ ([] : List (Nat × FVal)) := by
  refine ⟨by decide, by decide, by decide⟩

/-- C7 witness for the amended claim, at the same malformed predicate. -/
theorem C7_low_gt_high_silently_empty_witness :
    (5 : ℚ) < 10 ∧ filtered_data [(0, FVal.fin 7)] Prod.snd 10 5 = [] :=
  ⟨by decide, C7_low_gt_high_silently_empty [(0, FVal.fin 7)] Prod.snd 10 5 (by decide)⟩

/-- C8 (amended): a column is classified numeric iff every non-missing
cell parses as a number; in particular a column whose cells are all
missing is classified numeric (pandas infers an all-NaN `float64`
column), not categorical. -/
theorem C8_classifier_characterisation (col : List (Option Cell)) :
    (colIsNumeric col = true ↔ ∀ c ∈ col, ∀ s, c ≠ some (Cell.str s)) ∧
      ((∀ c ∈ col, c = none) → colIsNumeric col = true) := by
  have hiff : colIsNumeric col = true ↔ ∀ c ∈ col, ∀ s, c ≠ some (Cell.str s) := by
    unfold colIsNumeric
    rw [List.all_eq_true]
    constructor
    · intro h c hc s hs
      have := h c hc
      rw [hs] at this
      simp at this
    · intro h c hc
      match c with
      | some (.num _) => rfl
      | none => rfl
      | some (.str s) => exact absurd rfl (h _ hc s)
  refine ⟨hiff, fun hall => hiff.mpr ?_⟩
  intro c hc s hs
  rw [hall c hc] at hs
  exact Option.noConfusion hs

/-- C8 counterexample to the claim as stated: the entirely-missing
two-row column is classified numeric by `select_dtypes`, while the claim
requires it to be categorical and never numeric. -/
theorem C8_all_missing_is_numeric :
    colIsNumeric [(none : Option Cell), none] = true := by
  decide

/-- C8 witness: the amended theorem applied to the one-cell missing
column. -/
theorem C8_classifier_characterisation_witness :
    (∀ c ∈ [(none : Option Cell)], c = none) ∧
      colIsNumeric [(none : Option Cell)] = true :=
  ⟨by decide, (C8_classifier_characterisation [(none : Option Cell)]).2 (by decide)⟩

theorem map_fst_swap (ps : List (ℚ × ℚ)) :
    (ps.map Prod.swap).map Prod.fst = ps.map Prod.snd := by
  rw [List.map_map]
  rfl

theorem map_snd_swap (ps : List (ℚ × ℚ)) :
    (ps.map Prod.swap).map Prod.snd = ps.map Prod.fst := by
  rw [List.map_map]
  rfl

theorem finPairs_map_swap (rows : List (FVal × FVal)) :
    finPairs (rows.map Prod.swap) = (finPairs rows).map Prod.swap := by
  induction rows with
  | nil => rfl
  | cons p rest ih =>
    obtain ⟨a, b⟩ := p
    cases a <;> cases b <;>
      simp only [List.map_cons, finPairs, List.filterMap_cons] <;>
      simpa [finPairs] using ih

theorem covSum_swap (ps : List (ℚ × ℚ)) :
    covSum (ps.map Prod.swap) = covSum ps := by
  unfold covSum
  rw [map_fst_swap, map_snd_swap, List.map_map]
  congr 1
  apply List.map_congr_left
  intro p _
  simp only [Function.comp_apply, Prod.fst_swap, Prod.snd_swap]
  ring

theorem pandasValidPairs_swap (xs ys : List FVal) :
    pandasValidPairs ys xs = (pandasValidPairs xs ys).map Prod.swap := by
  unfold pandasValidPairs
  rw [← List.zip_swap xs ys, finPairs_map_swap]

theorem pandasEntry_symm (xs ys : List FVal) :
    pandasEntry ys xs = pandasEntry xs ys := by
  unfold pandasEntry
  rw [pandasValidPairs_swap]
  simp only [List.length_map]
  by_cases hc : (pandasValidPairs xs ys).length < 1
  · rw [if_pos hc, if_pos hc]
  · rw [if_neg hc, if_neg hc, covSum_swap, map_fst_swap, map_snd_swap, mul_comm]

theorem map_pair_fst (l : List ℚ) :
    ((l.map fun q => (q, q)).map Prod.fst) = l := by
  rw [List.map_map]
  exact List.map_id _

theorem map_pair_snd (l : List ℚ) :
    ((l.map fun q => (q, q)).map Prod.snd) = l := by
  rw [List.map_map]
  exact List.map_id _

theorem covSum_diag (l : List ℚ) :
    covSum (l.map fun q => (q, q)) = varSum l := by
  unfold covSum varSum
  rw [map_pair_fst, map_pair_snd, List.map_map]
  congr 1
  apply List.map_congr_left
  intro q _
  simp only [Function.comp_apply]
  ring

theorem varSum_nonneg (l : List ℚ) : 0 ≤ varSum l :=
  List.sum_nonneg fun x hx => by
    obtain ⟨q, _, rfl⟩ := List.mem_map.mp hx
    exact sq_nonneg _

theorem list_sum_eq_zero_of_nonneg {l : List ℚ} (h0 : ∀ x ∈ l, 0 ≤ x)
    (hs : l.sum = 0) : ∀ x ∈ l, x = 0 := by
  induction l with
  | nil => simp
  | cons a t ih =>
    rw [List.sum_cons] at hs
    have ha : 0 ≤ a := h0 a (List.mem_cons_self _ _)
    have ht : 0 ≤ t.sum := List.sum_nonneg fun x hx => h0 x (List.mem_cons_of_mem _ hx)
    have ha0 : a = 0 := by linarith
    intro x hx
    rcases List.mem_cons.mp hx with rfl | hx
    · exact ha0
    · exact ih (fun y hy => h0 y (List.mem_cons_of_mem _ hy)) (by linarith) x hx

theorem varSum_pos {l : List ℚ} {a b : ℚ} (ha : a ∈ l) (hb : b ∈ l)
    (hab : a ≠ b) : 0 < varSum l := by
  rcases lt_or_eq_of_le (varSum_nonneg l) with h | h
  · exact h
  · exfalso
    have hz : ∀ x ∈ l.map (fun x => (x - mean l) ^ 2), x = 0 :=
      list_sum_eq_zero_of_nonneg
        (fun x hx => by obtain ⟨q, _, rfl⟩ := List.mem_map.mp hx; exact sq_nonneg _)
        h.symm
    have hA : a = mean l := by
      have h1 := hz _ (List.mem_map_of_mem _ ha)
      have h2 := pow_eq_zero_iff (two_ne_zero) |>.mp h1
      linarith [sub_eq_zero.mp h2]
    have hB : b = mean l := by
      have h1 := hz _ (List.mem_map_of_mem _ hb)
      have h2 := pow_eq_zero_iff (two_ne_zero) |>.mp h1
      linarith [sub_eq_zero.mp h2]
    exact hab (hA.trans hB.symm)

theorem two_le_length_of_mem_ne {α : Type _} {l : List α} {a b : α}
    (ha : a ∈ l) (hb : b ∈ l) (hab : a ≠ b) : 2 ≤ l.length := by
  cases l with
  | nil => simp at ha
  | cons x t =>
    cases t with
    | nil =>
      simp only [List.mem_singleton] at ha hb
      exact absurd (ha.trans hb.symm) hab
    | cons y u =>
      simp only [List.length_cons]
      omega

theorem diag_pairs_structure (xs : List FVal) :
    pandasValidPairs xs xs = (finiteVals xs).map fun q => (q, q) := by
  unfold pandasValidPairs
  induction xs with
  | nil => rfl
  | cons v rest ih =>
    cases v with
    | fin q =>
      have h1 : finPairs ((FVal.fin q :: rest).zip (FVal.fin q :: rest))
          = (q, q) :: finPairs (rest.zip rest) := by
        simp [finPairs, List.zip_cons_cons, List.filterMap_cons]
      have h2 : finiteVals (FVal.fin q :: rest) = q :: finiteVals rest := by
        simp [finiteVals, List.filterMap_cons]
      rw [h1, h2, List.map_cons, ih]
    | pinf =>
      have h1 : finPairs ((FVal.pinf :: rest).zip (FVal.pinf :: rest))
          = finPairs (rest.zip rest) := by
        simp [finPairs, List.zip_cons_cons, List.filterMap_cons]
      have h2 : finiteVals (FVal.pinf :: rest) = finiteVals rest := by
        simp [finiteVals, List.filterMap_cons]
      rw [h1, h2, ih]
    | ninf =>
      have h1 : finPairs ((FVal.ninf :: rest).zip (FVal.ninf :: rest))
          = finPairs (rest.zip rest) := by
        simp [finPairs, List.zip_cons_cons, List.filterMap_cons]
      have h2 : finiteVals (FVal.ninf :: rest) = finiteVals rest := by
        simp [finiteVals, List.filterMap_cons]
      rw [h1, h2, ih]
    | nan =>
      have h1 : finPairs ((FVal.nan :: rest).zip (FVal.nan :: rest))
          = finPairs (rest.zip rest) := by
        simp [finPairs, List.zip_cons_cons, List.filterMap_cons]
      have h2 : finiteVals (FVal.nan :: rest) = finiteVals rest := by
        simp [finiteVals, List.filterMap_cons]
      rw [h1, h2, ih]

/-- The normal-form test `entryIsOne` agrees with the real-valued
interpretation of the cell: for a cell `(c, d)` with nonnegative `d`,
the encoded value is exactly `1.0` iff `0 < c` and `c² = d`. -/
theorem entryIsOne_iff_val_one {c d : ℚ} (hd : 0 ≤ d) :
    entryIsOne (some (c, d)) ↔ entryVal (some (c, d)) = some 1 := by
  have hval : entryVal (some (c, d))
      = if d = 0 then none else some ((c : ℝ) / Real.sqrt (d : ℝ)) := rfl
  rw [hval]
  by_cases h0 : d = 0
  · subst h0
    simp only [if_pos rfl]
    constructor
    · intro ⟨hc, hc2⟩
      have : c = 0 := pow_eq_zero_iff (two_ne_zero) |>.mp hc2
      exact absurd this (ne_of_gt hc)
    · intro h
      exact Option.noConfusion h
  · rw [if_neg h0]
    have hd' : (0 : ℚ) < d := lt_of_le_of_ne hd (Ne.symm h0)
    have hdR : (0 : ℝ) < (d : ℝ) := by exact_mod_cast hd'
    have hsq : (0 : ℝ) < Real.sqrt (d : ℝ) := Real.sqrt_pos.mpr hdR
    constructor
    · intro ⟨hc, hc2⟩
      have hcR : (0 : ℝ) < (c : ℝ) := by exact_mod_cast hc
      have hdc : ((d : ℚ) : ℝ) = ((c : ℝ)) ^ 2 := by exact_mod_cast hc2.symm
      rw [hdc, Real.sqrt_sq hcR.le, div_self (ne_of_gt hcR)]
    · intro h
      have h1 : ((c : ℝ)) / Real.sqrt (d : ℝ) = 1 := Option.some.inj h
      have h2 : ((c : ℝ)) = Real.sqrt (d : ℝ) :=
        (div_eq_one_iff_eq (ne_of_gt hsq)).mp h1
      have hcR : (0 : ℝ) < (c : ℝ) := h2 ▸ hsq
      have hc : (0 : ℚ) < c := by exact_mod_cast hcR
      refine ⟨hc, ?_⟩
      have h3 : ((c : ℝ)) ^ 2 = (d : ℝ) := by
        rw [h2, Real.sq_sqrt hdR.le]
      exact_mod_cast h3

/-- C5 (amended): the correlation matrix is exactly symmetric for every
input dataset; a diagonal entry equals `1.0` whenever the column holds
at least two distinct finite values (pandas drops NaN and ±infinity
rows alike before computing) — but a constant (zero-variance) or
insufficiently populated column has a NaN diagonal entry, not `1.0`. -/
theorem C5_symmetric_and_diagonal :
    (∀ cols i j, corr_matrix cols i j = corr_matrix cols j i) ∧
      ∀ cols i,
        (∃ a ∈ finiteVals (cols.getD i ([] : List FVal)),
          ∃ b ∈ finiteVals (cols.getD i []), a ≠ b) →
        entryIsOne (corr_matrix cols i i) := by
  constructor
  · intro cols i j
    exact (pandasEntry_symm (cols.getD i []) (cols.getD j [])).symm
  · intro cols i hex
    obtain ⟨a, ha, b, hb, hab⟩ := hex
    have hps := diag_pairs_structure (cols.getD i [])
    have hfl : 2 ≤ (finiteVals (cols.getD i [])).length :=
      two_le_length_of_mem_ne ha hb hab
    have hlen : ¬((pandasValidPairs (cols.getD i []) (cols.getD i [])).length < 1) := by
      rw [hps, List.length_map]
      omega
    unfold corr_matrix pandasEntry
    rw [if_neg hlen, hps, covSum_diag, map_pair_fst, map_pair_snd]
    exact ⟨varSum_pos ha hb hab, pow_two _⟩

/-- C5 counterexample to the claim as stated: for the dataset with the
single constant column `[1, 1]`, the diagonal cell of the correlation
matrix is the 0/0 form `(0, 0)` — floating-point NaN — and not `1.0`. -/
theorem C5_constant_column_diagonal_not_one :
    ¬ entryIsOne (corr_matrix [[FVal.fin 1, FVal.fin 1]] 0 0) ∧
      entryVal (corr_matrix [[FVal.fin 1, FVal.fin 1]] 0 0) ≠ some 1 := by
  have h : corr_matrix [[FVal.fin 1, FVal.fin 1]] 0 0 = some (0, 0) := by
    unfold corr_matrix pandasEntry
    norm_num [pandasValidPairs, finPairs, covSum, varSum, mean,
      List.zip_cons_cons, List.filterMap_cons]
  rw [h]
  constructor
  · simp [entryIsOne]
  · simp [entryVal]

/-- C5 witness: the amended theorem applied to a column holding the two
distinct finite values `0` and `1` plus a `+inf` row, which pandas drops
before computing — the diagonal is still exactly `1.0`. -/
theorem C5_symmetric_and_diagonal_witness :
    (∃ a ∈ finiteVals ([[FVal.fin 0, FVal.fin 1, FVal.pinf]].getD 0 ([] : List FVal)),
      ∃ b ∈ finiteVals ([[FVal.fin 0, FVal.fin 1, FVal.pinf]].getD 0 []), a ≠ b) ∧
      entryIsOne (corr_matrix [[FVal.fin 0, FVal.fin 1, FVal.pinf]] 0 0) :=
  ⟨by decide,
    C5_symmetric_and_diagonal.2 [[FVal.fin 0, FVal.fin 1, FVal.pinf]] 0 (by decide)⟩

theorem length_filterMap_eq_length_filter {α β : Type _} (f : α → Option β)
    (l : List α) :
    (l.filterMap f).length = (l.filter fun a => (f a).isSome).length := by
  induction l with
  | nil => rfl
  | cons a l ih =>
    cases hfa : f a <;> simp [List.filterMap_cons, List.filter_cons, hfa, ih]

theorem filterMap_range_succ {β : Type _} (g : Nat → Option β) (n : Nat) :
    (List.range (n + 1)).filterMap g
      = match g 0 with
        | some b => b :: (List.range n).filterMap fun i => g (i + 1)
        | none => (List.range n).filterMap fun i => g (i + 1) := by
  rw [List.range_succ_eq_map, List.filterMap_cons, List.filterMap_map]
  cases hg : g 0
  · simp only [hg]
    rfl
  · simp only [hg]
    rfl

theorem validPairs_eq_range_filterMap (xs : List FVal) :
    ∀ ys : List FVal, xs.length = ys.length →
      validPairs xs ys = (List.range xs.length).filterMap fun i =>
        match xs.getD i FVal.nan, ys.getD i FVal.nan with
        | .fin a, .fin b => some (a, b)
        | _, _ => none := by
  induction xs with
  | nil => intro ys h; rfl
  | cons x xs ih =>
    intro ys h
    cases ys with
    | nil => simp at h
    | cons y ys =>
      have ih' := ih ys (by simpa using h)
      have hlen : (x :: xs).length = xs.length + 1 := rfl
      rw [hlen, filterMap_range_succ]
      have hshift : (fun i => match (x :: xs).getD (i + 1) FVal.nan,
            (y :: ys).getD (i + 1) FVal.nan with
          | FVal.fin a, FVal.fin b => some (a, b)
          | _, _ => none)
          = fun i => match xs.getD i FVal.nan, ys.getD i FVal.nan with
          | FVal.fin a, FVal.fin b => some (a, b)
          | _, _ => none := rfl
      rw [hshift, ← ih']
      cases x <;> cases y <;>
        simp [validPairs, finPairs, List.zip_cons_cons, List.filterMap_cons]

/-- C2: the Safe Correlation Calculator uses exactly the rows at which
both columns hold finite, non-missing numbers: the valid pairs are the
values at exactly those indices, and `valid_pair_count` is the number of
such indices. -/
theorem C2_validity_mask (F : ℝ → ℝ) (xs ys : List FVal)
    (h : xs.length = ys.length) :
    (safe_corr F xs ys).valid_pair_count
        = ((List.range xs.length).filter fun i =>
            (xs.getD i FVal.nan).isFinite && (ys.getD i FVal.nan).isFinite).length ∧
      validPairs xs ys = (List.range xs.length).filterMap fun i =>
        match xs.getD i FVal.nan, ys.getD i FVal.nan with
        | .fin a, .fin b => some (a, b)
        | _, _ => none := by
  have hcount : (safe_corr F xs ys).valid_pair_count = (validPairs xs ys).length := by
    unfold safe_corr
    split <;> rfl
  have hmap := validPairs_eq_range_filterMap xs ys h
  refine ⟨?_, hmap⟩
  rw [hcount, hmap, length_filterMap_eq_length_filter]
  congr 1
  apply List.filter_congr
  intro i _
  cases hx : xs.getD i FVal.nan <;> cases hy : ys.getD i FVal.nan <;>
    simp [FVal.isFinite]

/-- C2 witness: the spec's concrete scenario `x=[1,2,inf,4]`,
`y=[10,20,30,nan]` — only the first two rows are used and
`valid_pair_count = 2`. -/
theorem C2_validity_mask_witness :
    exX.length = exY.length ∧
      ((safe_corr stepCDF exX exY).valid_pair_count
          = ((List.range exX.length).filter fun i =>
              (exX.getD i FVal.nan).isFinite && (exY.getD i FVal.nan).isFinite).length ∧
        validPairs exX exY = (List.range exX.length).filterMap fun i =>
          match exX.getD i FVal.nan, exY.getD i FVal.nan with
          | .fin a, .fin b => some (a, b)
          | _, _ => none) ∧
      validPairs exX exY = [(1, 10), (2, 20)] ∧
      (safe_corr stepCDF exX exY).valid_pair_count = 2 := by
  refine ⟨rfl, C2_validity_mask stepCDF exX exY rfl, by decide, ?_⟩
  have hcount : (safe_corr stepCDF exX exY).valid_pair_count
      = (validPairs exX exY).length := by
    unfold safe_corr
    split <;> rfl
  rw [hcount]
  decide

/-- C3: whenever fewer than two valid paired observations remain after
masking, the Safe Correlation Calculator returns the neutral result —
coefficient `0`, p-value `1` and the number of valid rows — and, being a
total function, never signals an error. -/
theorem C3_low_count_neutral (F : ℝ → ℝ) (xs ys : List FVal)
    (h : (validPairs xs ys).length < 2) :
    safe_corr F xs ys = ⟨0, 1, (validPairs xs ys).length⟩ := by
  unfold safe_corr
  rw [if_pos h]

/-- C3 witness: a column pair with an infinity and a NaN leaving no
valid row. -/
theorem C3_low_count_neutral_witness :
    (validPairs [FVal.pinf, FVal.fin 1] [FVal.fin 1, FVal.nan]).length < 2 ∧
      safe_corr stepCDF [FVal.pinf, FVal.fin 1] [FVal.fin 1, FVal.nan]
        = ⟨0, 1, (validPairs [FVal.pinf, FVal.fin 1] [FVal.fin 1, FVal.nan]).length⟩ :=
  ⟨by decide,
    C3_low_count_neutral stepCDF [FVal.pinf, FVal.fin 1] [FVal.fin 1, FVal.nan]
      (by decide)⟩

theorem list_cauchy_schwarz (l : List (ℚ × ℚ)) :
    (l.map fun p => p.1 * p.2).sum ^ 2 ≤
      (l.map fun p => p.1 ^ 2).sum * (l.map fun p => p.2 ^ 2).sum := by
  induction l with
  | nil => simp
  | cons p l ih =>
    obtain ⟨a, b⟩ := p
    simp only [List.map_cons, List.sum_cons]
    set S := (l.map fun p => p.1 * p.2).sum with hS
    set A := (l.map fun p => p.1 ^ 2).sum with hA
    set B := (l.map fun p => p.2 ^ 2).sum with hB
    have hA0 : 0 ≤ A := List.sum_nonneg fun x hx => by
      obtain ⟨q, _, rfl⟩ := List.mem_map.mp hx
      exact sq_nonneg _
    have hB0 : 0 ≤ B := List.sum_nonneg fun x hx => by
      obtain ⟨q, _, rfl⟩ := List.mem_map.mp hx
      exact sq_nonneg _
    rcases eq_or_lt_of_le hB0 with hBz | hBp
    · have hSz : S = 0 := by
        have h1 : S ^ 2 ≤ 0 := by nlinarith [ih]
        have h2 := sq_nonneg S
        exact pow_eq_zero_iff (two_ne_zero) |>.mp (le_antisymm h1 h2)
      rw [hSz, ← hBz]
      nlinarith [mul_nonneg hA0 (sq_nonneg b)]
    · nlinarith [ih, sq_nonneg (a * B - b * S),
        mul_nonneg (sq_nonneg b) (sub_nonneg.mpr ih),
        mul_nonneg hBp.le (sub_nonneg.mpr ih)]

theorem covSum_sq_le (ps : List (ℚ × ℚ)) :
    covSum ps ^ 2 ≤ varSum (ps.map Prod.fst) * varSum (ps.map Prod.snd) := by
  have h := list_cauchy_schwarz
    (ps.map fun p => (p.1 - mean (ps.map Prod.fst), p.2 - mean (ps.map Prod.snd)))
  simp only [List.map_map] at h
  unfold covSum varSum
  simp only [List.map_map]
  exact h

theorem pearsonCoeff_bounds (ps : List (ℚ × ℚ)) :
    -1 ≤ pearsonCoeff ps ∧ pearsonCoeff ps ≤ 1 := by
  unfold pearsonCoeff
  set c : ℝ := ((covSum ps : ℚ) : ℝ) with hc
  set vx : ℝ := ((varSum (ps.map Prod.fst) : ℚ) : ℝ) with hvx
  set vy : ℝ := ((varSum (ps.map Prod.snd) : ℚ) : ℝ) with hvy
  have hvx0 : 0 ≤ vx := by
    rw [hvx]
    exact_mod_cast varSum_nonneg _
  have hvy0 : 0 ≤ vy := by
    rw [hvy]
    exact_mod_cast varSum_nonneg _
  have hcs : c ^ 2 ≤ vx * vy := by
    rw [hc, hvx, hvy]
    exact_mod_cast covSum_sq_le ps
  by_cases h0 : Real.sqrt (vx * vy) = 0
  · rw [h0, div_zero]
    norm_num
  · have hpos : 0 < Real.sqrt (vx * vy) :=
      lt_of_le_of_ne (Real.sqrt_nonneg _) (Ne.symm h0)
    have habs : |c| ≤ Real.sqrt (vx * vy) := by
      rw [← Real.sqrt_sq_eq_abs]
      exact Real.sqrt_le_sqrt hcs
    have hlo := (abs_le.mp habs).1
    have hhi := (abs_le.mp habs).2
    constructor
    · rw [le_div_iff₀ hpos]
      linarith
    · rw [div_le_one hpos]
      linarith

/-- C9: whenever at least two valid paired observations remain, the
Safe Correlation Calculator's coefficient lies in `[-1, 1]` and, for any
genuine CDF `F` (valued in `[0,1]` and at least `1/2` on the nonnegative
axis, as any CDF of a distribution symmetric about zero is), its
two-sided p-value lies in `[0, 1]`. -/
theorem C9_result_bounds (F : ℝ → ℝ) (xs ys : List FVal)
    (hF1 : ∀ x, 0 ≤ F x ∧ F x ≤ 1) (hF2 : ∀ x, 0 ≤ x → 1 / 2 ≤ F x)
    (h2 : 2 ≤ (validPairs xs ys).length) :
    (-1 ≤ (safe_corr F xs ys).coefficient ∧ (safe_corr F xs ys).coefficient ≤ 1) ∧
      0 ≤ (safe_corr F xs ys).p_value ∧ (safe_corr F xs ys).p_value ≤ 1 := by
  unfold safe_corr
  rw [if_neg (by omega)]
  have hb := pearsonCoeff_bounds (validPairs xs ys)
  have h1 := hF1 |tStat (validPairs xs ys)|
  have hmid := hF2 |tStat (validPairs xs ys)| (abs_nonneg _)
  refine ⟨hb, ?_⟩
  show 0 ≤ 2 * (1 - F |tStat (validPairs xs ys)|) ∧
      2 * (1 - F |tStat (validPairs xs ys)|) ≤ 1
  constructor
  · linarith [h1.2]
  · linarith [hmid]

/-- C9 witness: applied with the step CDF at two perfectly correlated
two-row columns. -/
theorem C9_result_bounds_witness :
    (∀ x : ℝ, 0 ≤ stepCDF x ∧ stepCDF x ≤ 1) ∧
      (∀ x : ℝ, 0 ≤ x → 1 / 2 ≤ stepCDF x) ∧
      2 ≤ (validPairs [FVal.fin 0, FVal.fin 1] [FVal.fin 0, FVal.fin 1]).length ∧
      ((-1 ≤ (safe_corr stepCDF [FVal.fin 0, FVal.fin 1]
            [FVal.fin 0, FVal.fin 1]).coefficient ∧
          (safe_corr stepCDF [FVal.fin 0, FVal.fin 1]
            [FVal.fin 0, FVal.fin 1]).coefficient ≤ 1) ∧
        0 ≤ (safe_corr stepCDF [FVal.fin 0, FVal.fin 1]
            [FVal.fin 0, FVal.fin 1]).p_value ∧
          (safe_corr stepCDF [FVal.fin 0, FVal.fin 1]
            [FVal.fin 0, FVal.fin 1]).p_value ≤ 1) := by
  have hF1 : ∀ x : ℝ, 0 ≤ stepCDF x ∧ stepCDF x ≤ 1 := by
    intro x
    unfold stepCDF
    split <;> norm_num
  have hF2 : ∀ x : ℝ, 0 ≤ x → 1 / 2 ≤ stepCDF x := by
    intro x hx
    unfold stepCDF
    rw [if_neg (not_lt.mpr hx)]
    norm_num
  exact ⟨hF1, hF2, by decide,
    C9_result_bounds stepCDF [FVal.fin 0, FVal.fin 1] [FVal.fin 0, FVal.fin 1]
      hF1 hF2 (by decide)⟩

end CarPrices
